import Mathlib

/-!
Shallow embedding of the diagnostic suite of the cINN repository
(`diagnostics.py` and `inn_utils.py`).

Arrays are modelled as functions out of `Fin`-types; numpy float scalars are
modelled by exact rationals `ℚ` (and by `ℝ` where a square root occurs), with
the degenerate IEEE behaviour of division captured explicitly by `NpVal` where
a claim is about non-finite results.  Shapes follow the source:
`theta_samples : (n_samples, n_test, n_params)`, `theta_test : (n_test, n_params)`.
-/

namespace CINN

/-- Rounding of a scalar to the nearest integer with ties to even,
the rounding convention used by `np.round`. -/
def rne (x : ℚ) : ℤ :=
  let f := ⌊x⌋
  let r := x - f
  if r < 1/2 then f
  else if 1/2 < r then f + 1
  else if f % 2 = 0 then f else f + 1

/-- `np.round(x, 3)`: scale by 1000, round to nearest (ties to even), scale back. -/
def round3 (x : ℚ) : ℚ := (rne (1000 * x) : ℚ) / 1000

/-- `np.linspace(a, b, n)`: `n` evenly spaced points, first at `a`;
for `n ≥ 2` the last point is `b`.  For `n = 1` the single point is `a`
(the `i = 0` term below is `a` because `0 * x / 0 = 0` in `ℚ`). -/
def np_linspace (a b : ℚ) (n : ℕ) : List ℚ :=
  (List.range n).map (fun i : ℕ => a + ((i : ℚ) * (b - a)) / ((n : ℚ) - 1))

/-- `np.median` of a 1-D array: sort; the middle element when the length is
odd, the average of the two middle elements when it is even.
(`np.median` of an empty array is NaN; we use 0 as the out-of-range default,
claims never rely on the empty case.) -/
def np_median (l : List ℚ) : ℚ :=
  let s := l.insertionSort (· ≤ ·)
  let n := l.length
  if n = 0 then 0
  else if n % 2 = 1 then s.getD (n / 2) 0
  else (s.getD (n / 2 - 1) 0 + s.getD (n / 2) 0) / 2

/-- `np.quantile(xs, q)` with the default linear-interpolation method:
virtual index `h = q * (n - 1)`, `i = ⌊h⌋`, result
`s[i] + (h - i) * (s[i+1] - s[i])` on the sorted data `s`
(for `q = 1` the fractional part is 0, so the `i+1` access is inert). -/
def np_quantile (xs : List ℚ) (q : ℚ) : ℚ :=
  let s := xs.insertionSort (· ≤ ·)
  let h := q * ((xs.length : ℚ) - 1)
  let i := (⌊h⌋).toNat
  let lo := s.getD i 0
  lo + (h - (i : ℚ)) * (s.getD (i + 1) lo - lo)

/-- `theta_samples[:, i, k]`: the posterior draws of parameter `k` for test
instance `i`, as a list over the sample axis. -/
def sampleColumn {nS nT nP : ℕ} (samples : Fin nS → Fin nT → Fin nP → ℚ)
    (i : Fin nT) (k : Fin nP) : List ℚ :=
  List.ofFn (fun s => samples s i k)

/-- `lower = np.round(region / 2, 3)` with `region = 1 - alpha`. -/
def calibLower (alpha : ℚ) : ℚ := round3 ((1 - alpha) / 2)

/-- `upper = np.round(1 - (region / 2), 3)` with `region = 1 - alpha`. -/
def calibUpper (alpha : ℚ) : ℚ := round3 (1 - (1 - alpha) / 2)

/-- The inlier test of `calibration_error`: the true value lies strictly
between the per-instance lower and upper quantile of the posterior draws. -/
def inlier {nS nT nP : ℕ} (samples : Fin nS → Fin nT → Fin nP → ℚ)
    (truth : Fin nT → Fin nP → ℚ) (i : Fin nT) (k : Fin nP) (alpha : ℚ) : Bool :=
  let xs := sampleColumn samples i k
  decide (np_quantile xs (calibLower alpha) < truth i k) &&
  decide (truth i k < np_quantile xs (calibUpper alpha))

/-- `inliers_alpha = np.sum(inlier_id) / n_test`: the empirical coverage of the
central credible interval at level `alpha`, for parameter `k`. -/
def coverageAt {nS nT nP : ℕ} (samples : Fin nS → Fin nT → Fin nP → ℚ)
    (truth : Fin nT → Fin nP → ℚ) (k : Fin nP) (alpha : ℚ) : ℚ :=
  (((List.ofFn (fun i : Fin nT => inlier samples truth i k alpha)).count true : ℕ) : ℚ) / (nT : ℚ)

/-- `alphas = np.linspace(0.01, 1.0, alpha_resolution)`. -/
def calibAlphas (res : ℕ) : List ℚ := np_linspace (1/100) 1 res

/-- `calibration_error(theta_samples, theta_test, alpha_resolution)` of
`diagnostics.py`, per parameter `k`: sweep the credibility grid, record the
empirical coverage at each level, and return the rounded median of the
absolute deviations `|alpha - coverage|`. -/
def calibration_error {nS nT nP : ℕ} (samples : Fin nS → Fin nT → Fin nP → ℚ)
    (truth : Fin nT → Fin nP → ℚ) (res : ℕ) (k : Fin nP) : ℚ :=
  let alphas := calibAlphas res
  let diffs := alphas.map (fun a => |a - coverageAt samples truth k a|)
  round3 (np_median diffs)

/-- A numpy double as the diagnostics use it: either a finite value, or one of
the non-finite IEEE values that dividing a finite value by zero produces. -/
inductive NpVal : Type where
  | fin (x : ℝ)
  | nan
  | inf
  | ninf

/-- Whether a numpy double is finite (`np.isfinite`). -/
def NpVal.isFinite : NpVal → Bool
  | .fin _ => true
  | _ => false

/-- IEEE division of numpy doubles on the cases the diagnostics reach:
a finite value divided by zero yields `inf`, `ninf` or `nan` by the sign of
the numerator; finite by nonzero is ordinary division.  (Non-finite operands
never arise upstream here; they fall to `nan`.) -/
noncomputable def npDiv : NpVal → NpVal → NpVal
  | .fin a, .fin b =>
      if b = 0 then (if 0 < a then .inf else if a < 0 then .ninf else .nan)
      else .fin (a / b)
  | _, _ => .nan

/-- `theta_samples.mean(0)`: the posterior-mean estimate per test instance and
parameter, shared by `rmse`, `R2` and `resimulation_error`. -/
def theta_means {nS nT nP : ℕ} (samples : Fin nS → Fin nT → Fin nP → ℚ)
    (i : Fin nT) (k : Fin nP) : ℚ :=
  (∑ s, samples s i k) / (nS : ℚ)

/-- `theta_test.max(axis=0)` at column `k`. -/
def colMax {nT nP : ℕ} (truth : Fin nT → Fin nP → ℚ) (k : Fin nP) : ℚ :=
  ((List.ofFn (fun i => truth i k)).max?).getD 0

/-- `theta_test.min(axis=0)` at column `k`. -/
def colMin {nT nP : ℕ} (truth : Fin nT → Fin nP → ℚ) (k : Fin nP) : ℚ :=
  ((List.ofFn (fun i => truth i k)).min?).getD 0

/-- The empirical range `max - min` of `truth`'s column `k`, the NRMSE
normaliser. -/
def colRange {nT nP : ℕ} (truth : Fin nT → Fin nP → ℚ) (k : Fin nP) : ℚ :=
  colMax truth k - colMin truth k

/-- `np.mean((theta_approx_means - theta_test) ** 2, axis=0)` at column `k`. -/
def mseCol {nS nT nP : ℕ} (samples : Fin nS → Fin nT → Fin nP → ℚ)
    (truth : Fin nT → Fin nP → ℚ) (k : Fin nP) : ℚ :=
  (∑ i, (theta_means samples i k - truth i k) ^ 2) / (nT : ℚ)

/-- `rmse(theta_samples, theta_test, normalized)` of `diagnostics.py` at
parameter `k`: the root of the per-parameter mean squared error of the
posterior means, divided (with numpy division semantics) by the column's
empirical range when `normalized`. -/
noncomputable def rmse {nS nT nP : ℕ} (samples : Fin nS → Fin nT → Fin nP → ℚ)
    (truth : Fin nT → Fin nP → ℚ) (normalized : Bool) (k : Fin nP) : NpVal :=
  let r : ℝ := Real.sqrt ((mseCol samples truth k : ℚ) : ℝ)
  if normalized then npDiv (.fin r) (.fin ((colRange truth k : ℚ) : ℝ))
  else .fin r

/-- `np.average(y_true, axis=0)` at column `k`, the baseline of `r2_score`. -/
def colMean {nT nP : ℕ} (truth : Fin nT → Fin nP → ℚ) (k : Fin nP) : ℚ :=
  (∑ i, truth i k) / (nT : ℚ)

/-- `sklearn.metrics.r2_score(y_true, y_pred, multioutput='raw_values')` at
column `k`.  Embeds the collaborator's documented handling of degenerate
sums: a zero residual sum scores 1.0 outright; a zero total sum with nonzero
residual sum scores 0.0; otherwise `1 - SS_res / SS_tot`. -/
def r2_score_col {nT nP : ℕ} (y_true y_pred : Fin nT → Fin nP → ℚ) (k : Fin nP) : ℚ :=
  let num := ∑ i, (y_true i k - y_pred i k) ^ 2
  let den := ∑ i, (y_true i k - colMean y_true k) ^ 2
  if num = 0 then 1 else if den = 0 then 0 else 1 - num / den

/-- `R2(theta_samples, theta_test)` of `diagnostics.py` at parameter `k`. -/
def R2 {nS nT nP : ℕ} (samples : Fin nS → Fin nT → Fin nP → ℚ)
    (truth : Fin nT → Fin nP → ℚ) (k : Fin nP) : ℚ :=
  r2_score_col truth (theta_means samples) k

/-- `resimulation_error(theta_samples, theta_test, simulator)` of
`diagnostics.py`.  The simulator and the two-sample distance
`maximum_mean_discrepancy` (the out-of-scope `losses` collaborator) are
injected; the simulator returns a list over its leading axis, one simulated
point set per instance.  The source indexes `X_test_true[i]`, `X_test_est[i]`
for `i in range(n_test)`; an out-of-range index raises, modelled by `none`. -/
def resimulation_error {D : Type _} {nS nT nP : ℕ}
    (samples : Fin nS → Fin nT → Fin nP → ℚ) (truth : Fin nT → Fin nP → ℚ)
    (simulator : (Fin nT → Fin nP → ℚ) → List D) (mmd : D → D → ℚ) : Option ℚ :=
  let means := theta_means samples
  let Xtrue := simulator truth
  let Xest := simulator means
  (((List.range nT).mapM (fun i => do
      let a ← Xtrue[i]?
      let b ← Xest[i]?
      pure (mmd a b))) : Option (List ℚ)).map np_median

/-- `np.var(xs, ddof=1)`: sample variance with Bessel correction. -/
def np_var_ddof1 (xs : List ℚ) : ℚ :=
  let m := xs.sum / (xs.length : ℚ)
  (xs.map (fun x => (x - m) ^ 2)).sum / ((xs.length : ℚ) - 1)

/-- One sweep iteration's data generation in `compute_metrics`:
`simulate_fun(n_test, n_trials=n_points)`, then the optional transform. -/
def sweepPair {D : Type _} {nT nP : ℕ}
    (simulate : ℕ → ℕ → D × (Fin nT → Fin nP → ℚ))
    (transform : Option (D × (Fin nT → Fin nP → ℚ) → D × (Fin nT → Fin nP → ℚ)))
    (n_test n_points : ℕ) : D × (Fin nT → Fin nP → ℚ) :=
  match transform with
  | none => simulate n_test n_points
  | some f => f (simulate n_test n_points)

/-- `model.sample(X_test, n_samples_posterior, to_numpy=True).mean(axis=0)`:
the sampler collaborator yields the list of posterior draws, reduced to their
pointwise mean. -/
def sweepMeans {D : Type _} {nT nP : ℕ}
    (sampler : D → ℕ → List (Fin nT → Fin nP → ℚ))
    (nsp : ℕ) (X : D) (i : Fin nT) (k : Fin nP) : ℚ :=
  let draws := sampler X nsp
  ((draws.map (fun d => d i k)).sum) / (draws.length : ℚ)

/-- The per-iteration NRMSE of `compute_metrics` (inline in the source):
root mean squared error of column `j`, divided with numpy semantics by the
column's range in this iteration's truth. -/
noncomputable def sweepNrmse {nT nP : ℕ} (means ttest : Fin nT → Fin nP → ℚ)
    (j : Fin nP) : NpVal :=
  let r : ℝ := Real.sqrt (((∑ i, (means i j - ttest i j) ^ 2) / (nT : ℚ) : ℚ) : ℝ)
  npDiv (.fin r) (.fin ((colRange ttest j : ℚ) : ℝ))

/-- The trajectories `compute_metrics` records: one sequence per metric and
parameter column (the source keys columns by the parameter's name). -/
structure MetricsDict (nP : ℕ) : Type where
  nrmse : Fin nP → List NpVal
  r2 : Fin nP → List ℚ
  var : Fin nP → List ℚ

/-- `compute_metrics` of `inn_utils.py`: sweep `n_points` over
`np.arange(n_min, n_max + 1)`; for each value generate a fresh data/truth
pair, reduce the posterior draws to means, and append per parameter the
NRMSE, the R² score and the Bessel-corrected variance of the posterior
means.  The source's append-in-a-loop is the map over the sweep axis. -/
noncomputable def compute_metrics {D : Type _} {nT nP : ℕ}
    (simulate : ℕ → ℕ → D × (Fin nT → Fin nP → ℚ))
    (sampler : D → ℕ → List (Fin nT → Fin nP → ℚ))
    (n_test nsp : ℕ)
    (transform : Option (D × (Fin nT → Fin nP → ℚ) → D × (Fin nT → Fin nP → ℚ)))
    (n_min n_max : ℕ) : List ℕ × MetricsDict nP :=
  let ns := List.range' n_min (n_max + 1 - n_min)
  (ns,
    { nrmse := fun j => ns.map (fun n =>
        let p := sweepPair simulate transform n_test n
        sweepNrmse (sweepMeans sampler nsp p.1) p.2 j)
      r2 := fun j => ns.map (fun n =>
        let p := sweepPair simulate transform n_test n
        r2_score_col p.2 (sweepMeans sampler nsp p.1) j)
      var := fun j => ns.map (fun n =>
        let p := sweepPair simulate transform n_test n
        np_var_ddof1 (List.ofFn (fun i => sweepMeans sampler nsp p.1 i j))) })

/-! ## Shared helper lemmas -/

theorem getElem?_isSome_iff {α : Type _} (l : List α) (i : ℕ) :
    l[i]?.isSome = true ↔ i < l.length := by
  constructor
  · intro hs
    by_contra hlt
    rw [List.getElem?_eq_none (by omega)] at hs
    simp at hs
  · intro h
    rw [List.getElem?_eq_getElem h]
    rfl

theorem rat_min?_eq_some_iff (l : List ℚ) (a : ℚ) :
    l.min? = some a ↔ a ∈ l ∧ ∀ b ∈ l, a ≤ b := by
  have anti : Std.Antisymm (fun x1 x2 : ℚ => x1 ≤ x2) :=
    ⟨by intro a b h h2; exact le_antisymm h h2⟩
  exact List.min?_eq_some_iff (fun _ => le_refl _) (fun a b => min_choice a b)
    (fun _ _ _ => le_min_iff)

theorem rat_max?_eq_some_iff (l : List ℚ) (a : ℚ) :
    l.max? = some a ↔ a ∈ l ∧ ∀ b ∈ l, b ≤ a := by
  have anti : Std.Antisymm (fun x1 x2 : ℚ => x1 ≤ x2) :=
    ⟨by intro a b h h2; exact le_antisymm h h2⟩
  exact List.max?_eq_some_iff (fun _ => le_refl _) (fun a b => max_choice a b)
    (fun _ _ _ => max_le_iff)

/-- The entry of the credibility grid: `alphas[i] = 0.01 + i * 0.99 / (res - 1)`. -/
theorem calibAlphas_getD (res i : ℕ) (hi : i < res) :
    (calibAlphas res).getD i 0 = 1/100 + ((i : ℚ) * (99/100)) / ((res : ℚ) - 1) := by
  unfold calibAlphas np_linspace
  rw [List.getD_eq_getElem?_getD, List.getElem?_map, List.getElem?_range hi]
  norm_num

/-- Every element of the credibility grid lies in `[0, 1]`. -/
theorem calibAlphas_bounds (res : ℕ) : ∀ a ∈ calibAlphas res, 0 ≤ a ∧ a ≤ 1 := by
  intro a ha
  unfold calibAlphas np_linspace at ha
  rw [List.mem_map] at ha
  obtain ⟨i, hi, rfl⟩ := ha
  rw [List.mem_range] at hi
  rcases Nat.lt_or_ge res 2 with h2 | h2
  · have hres : res = 1 := by omega
    have hi0 : i = 0 := by omega
    subst hres; subst hi0
    norm_num
  · have hr : (2 : ℚ) ≤ (res : ℚ) := by exact_mod_cast h2
    have hpos : (0 : ℚ) < (res : ℚ) - 1 := by linarith
    have hterm0 : (0 : ℚ) ≤ ((i : ℚ) * (1 - 1/100)) / ((res : ℚ) - 1) := by positivity
    have hub : (i : ℚ) ≤ (res : ℚ) - 1 := by
      have : (i : ℚ) + 1 ≤ (res : ℚ) := by exact_mod_cast hi
      linarith
    have hterm1 : ((i : ℚ) * (1 - 1/100)) / ((res : ℚ) - 1) ≤ 99/100 := by
      rw [div_le_iff₀ hpos]
      nlinarith
    constructor <;> [linarith; linarith]

/-- The grid at resolution 1 is the single level 0.01. -/
theorem calibAlphas_one : calibAlphas 1 = [1/100] := by
  unfold calibAlphas np_linspace
  norm_num [List.range_succ]

/-- C2 counterexample: at resolution 1 the credibility grid of
`calibration_error` is the single level 0.01 (the `np.linspace` start point),
not 1.0 as the claim states. -/
theorem calibration_grid_res1_counterexample :
    calibAlphas 1 = [1/100] ∧ ((1 : ℚ)/100) ≠ 1 := by
  refine ⟨calibAlphas_one, by norm_num⟩

/-- C2 (amended): for resolution ≥ 2 the grid has `res` evenly spaced points
from 0.01 to 1.0, both endpoints included, with constant step
`0.99 / (res - 1)`; for resolution 1 the single evaluated level is 0.01. -/
theorem calibration_grid_spec (res : ℕ) (h2 : 2 ≤ res) :
    ((calibAlphas res).length = res ∧
      (calibAlphas res).getD 0 0 = 1/100 ∧
      (calibAlphas res).getD (res - 1) 0 = 1 ∧
      ∀ i, i + 1 < res →
        (calibAlphas res).getD (i + 1) 0 - (calibAlphas res).getD i 0 =
          (99/100) / ((res : ℚ) - 1)) ∧
    calibAlphas 1 = [1/100] := by
  have hr : (2 : ℚ) ≤ (res : ℚ) := by exact_mod_cast h2
  have hne : ((res : ℚ) - 1) ≠ 0 := by
    intro hzero
    have : (res : ℚ) = 1 := by linarith
    norm_num at this
    omega
  refine ⟨⟨?_, ?_, ?_, ?_⟩, calibAlphas_one⟩
  · unfold calibAlphas np_linspace
    rw [List.length_map, List.length_range]
  · rw [calibAlphas_getD res 0 (by omega)]
    norm_num
  · rw [calibAlphas_getD res (res - 1) (by omega)]
    have hcast : ((res - 1 : ℕ) : ℚ) = (res : ℚ) - 1 := by
      rw [Nat.cast_sub (by omega)]
      norm_num
    rw [hcast]
    have hcancel : ((res : ℚ) - 1) * (99/100) / ((res : ℚ) - 1) = 99/100 := by
      rw [mul_comm, mul_div_assoc, div_self hne, mul_one]
    rw [hcancel]
    norm_num
  · intro i hi
    rw [calibAlphas_getD res (i + 1) (by omega), calibAlphas_getD res i (by omega)]
    push_cast
    field_simp
    ring

/-- Witness for C2's amended theorem at resolution 3. -/
theorem calibration_grid_spec_witness :
    (2 ≤ 3) ∧
      ((((calibAlphas 3).length = 3 ∧
        (calibAlphas 3).getD 0 0 = 1/100 ∧
        (calibAlphas 3).getD (3 - 1) 0 = 1 ∧
        ∀ i, i + 1 < 3 →
          (calibAlphas 3).getD (i + 1) 0 - (calibAlphas 3).getD i 0 =
            (99/100) / (((3 : ℕ) : ℚ) - 1)) ∧
      calibAlphas 1 = [1/100])) :=
  ⟨by omega, calibration_grid_spec 3 (by omega)⟩

/-- If every element of `l` lies in `[0, b]` (with `0 ≤ b`), so does
`np_median l`. -/
theorem np_median_bounds (l : List ℚ) (b : ℚ) (hb : 0 ≤ b)
    (h : ∀ x ∈ l, 0 ≤ x ∧ x ≤ b) : 0 ≤ np_median l ∧ np_median l ≤ b := by
  unfold np_median
  have hlen : (l.insertionSort (· ≤ ·)).length = l.length :=
    List.length_insertionSort (· ≤ ·) l
  have hmem : ∀ x ∈ l.insertionSort (· ≤ ·), 0 ≤ x ∧ x ≤ b := fun x hx =>
    h x ((List.perm_insertionSort (· ≤ ·) l).mem_iff.mp hx)
  by_cases h0 : l.length = 0
  · rw [if_pos h0]
    exact ⟨le_refl 0, hb⟩
  · have hpos : 0 < l.length := Nat.pos_of_ne_zero h0
    by_cases hodd : l.length % 2 = 1
    · rw [if_neg h0, if_pos hodd]
      have hin : l.length / 2 < (l.insertionSort (· ≤ ·)).length := by
        rw [hlen]; omega
      rw [List.getD_eq_getElem _ _ hin]
      exact hmem _ (List.getElem_mem hin)
    · rw [if_neg h0, if_neg hodd]
      have hin1 : l.length / 2 - 1 < (l.insertionSort (· ≤ ·)).length := by
        rw [hlen]; omega
      have hin2 : l.length / 2 < (l.insertionSort (· ≤ ·)).length := by
        rw [hlen]; omega
      rw [List.getD_eq_getElem _ _ hin1, List.getD_eq_getElem _ _ hin2]
      have b1 := hmem _ (List.getElem_mem hin1)
      have b2 := hmem _ (List.getElem_mem hin2)
      constructor
      · apply div_nonneg _ (by norm_num : (0:ℚ) ≤ 2)
        linarith [b1.1, b2.1]
      · rw [div_le_iff₀ (by norm_num : (0:ℚ) < 2)]
        linarith [b1.2, b2.2]

/-- A list `mapM` over `Option` succeeds iff every element does. -/
theorem mapM_option_isSome {α β : Type _} (f : α → Option β) (l : List α) :
    (l.mapM f).isSome = true ↔ ∀ a ∈ l, (f a).isSome = true := by
  induction l with
  | nil => rw [List.mapM_nil]; simp
  | cons a l ih =>
    rw [List.mapM_cons]
    cases hfa : f a with
    | none =>
      simp only [Option.bind_eq_bind, Option.none_bind]
      constructor
      · intro hcontra
        simp at hcontra
      · intro hall
        have hthis := hall a (List.mem_cons_self a l)
        rw [hfa] at hthis
        simp at hthis
    | some b =>
      cases hml : l.mapM f with
      | none =>
        have hnl : ¬ ∀ x ∈ l, (f x).isSome = true := by
          rw [← ih, hml]
          simp
        simp only [Option.bind_eq_bind, Option.some_bind, Option.none_bind]
        constructor
        · intro hcontra
          simp at hcontra
        · intro hall
          exact absurd (fun x hx => hall x (List.mem_cons_of_mem a hx)) hnl
      | some bs =>
        have hl : ∀ x ∈ l, (f x).isSome = true := ih.mp (by rw [hml]; rfl)
        simp only [Option.bind_eq_bind, Option.some_bind]
        constructor
        · intro _ x hx
          rcases List.mem_cons.mp hx with rfl | hxl
          · rw [hfa]; rfl
          · exact hl x hxl
        · intro _
          rfl

/-- A list `mapM` over `Option` with everywhere-successful `f` returns the
mapped list. -/
theorem mapM_option_eq_some {α β : Type _} (f : α → Option β) (g : α → β)
    (l : List α) (h : ∀ a ∈ l, f a = some (g a)) : l.mapM f = some (l.map g) := by
  induction l with
  | nil => rfl
  | cons a l ih =>
    rw [List.mapM_cons, h a (List.mem_cons_self a l),
      ih (fun x hx => h x (List.mem_cons_of_mem a hx))]
    rfl

/-- C4: for every samples array and truth matrix, `rmse` with
`normalized=True` equals, elementwise per parameter, `rmse` with
`normalized=False` divided (by the same numpy division) by the parameter's
empirical truth range, column max minus column min. -/
theorem rmse_normalized_eq_rmse_div_range {nS nT nP : ℕ}
    (samples : Fin nS → Fin nT → Fin nP → ℚ) (truth : Fin nT → Fin nP → ℚ)
    (k : Fin nP) :
    rmse samples truth true k =
      npDiv (rmse samples truth false k) (NpVal.fin ((colRange truth k : ℚ) : ℝ)) := rfl

/-- C6: when every posterior-mean estimate equals the true value exactly,
`R2` is 1 for every parameter. -/
theorem R2_eq_one_of_exact_means {nS nT nP : ℕ}
    (samples : Fin nS → Fin nT → Fin nP → ℚ) (truth : Fin nT → Fin nP → ℚ)
    (hexact : ∀ i k, theta_means samples i k = truth i k) (k : Fin nP) :
    R2 samples truth k = 1 := by
  unfold R2 r2_score_col
  have hnum : (∑ i, (truth i k - theta_means samples i k) ^ 2) = 0 := by
    apply Finset.sum_eq_zero
    intro i _
    rw [hexact i k]
    ring
  simp [hnum]

def c6S : Fin 1 → Fin 2 → Fin 1 → ℚ := fun _ i _ => if i = 0 then 3 else 5

def c6T : Fin 2 → Fin 1 → ℚ := fun i _ => if i = 0 then 3 else 5

/-- Witness for C6 at a concrete input with exact posterior means. -/
theorem R2_eq_one_of_exact_means_witness :
    (∀ i k, theta_means c6S i k = c6T i k) ∧ R2 c6S c6T 0 = 1 := by
  have hexact : ∀ i k, theta_means c6S i k = c6T i k := by
    intro i k
    fin_cases i <;> fin_cases k <;> simp [theta_means, c6S, c6T]
  exact ⟨hexact, R2_eq_one_of_exact_means c6S c6T hexact 0⟩

/-- C3 (amended): `resimulation_error` fails precisely when one of the two
simulator outputs has leading dimension smaller than `n_test`; extra leading
entries beyond `n_test` are silently ignored. -/
theorem resimulation_error_isSome_iff {D : Type _} {nS nT nP : ℕ}
    (samples : Fin nS → Fin nT → Fin nP → ℚ) (truth : Fin nT → Fin nP → ℚ)
    (simulator : (Fin nT → Fin nP → ℚ) → List D) (mmd : D → D → ℚ) :
    (resimulation_error samples truth simulator mmd).isSome = true ↔
      (nT ≤ (simulator truth).length ∧
        nT ≤ (simulator (theta_means samples)).length) := by
  unfold resimulation_error
  rw [Option.isSome_map', mapM_option_isSome]
  have key : ∀ i : ℕ,
      (((do
        let a ← (simulator truth)[i]?
        let b ← (simulator (theta_means samples))[i]?
        pure (mmd a b)) : Option ℚ).isSome = true) ↔
      (i < (simulator truth).length ∧
        i < (simulator (theta_means samples)).length) := by
    intro i
    cases h1 : (simulator truth)[i]? with
    | none =>
      have hle : (simulator truth).length ≤ i := List.getElem?_eq_none_iff.mp h1
      simp only [Option.bind_eq_bind, Option.none_bind, Option.isSome_none]
      constructor
      · intro hcontra
        simp at hcontra
      · intro hc
        omega
    | some a =>
      have hlt1 : i < (simulator truth).length := by
        rcases List.getElem?_eq_some_iff.mp h1 with ⟨hh, _⟩
        exact hh
      cases h2 : (simulator (theta_means samples))[i]? with
      | none =>
        have hle : (simulator (theta_means samples)).length ≤ i :=
          List.getElem?_eq_none_iff.mp h2
        simp only [Option.bind_eq_bind, Option.some_bind, Option.none_bind,
          Option.isSome_none]
        constructor
        · intro hcontra
          simp at hcontra
        · intro hc
          omega
      | some b =>
        have hlt2 : i < (simulator (theta_means samples)).length := by
          rcases List.getElem?_eq_some_iff.mp h2 with ⟨hh, _⟩
          exact hh
        simp only [Option.bind_eq_bind, Option.some_bind]
        constructor
        · intro _
          exact ⟨hlt1, hlt2⟩
        · intro _
          rfl
  constructor
  · intro h
    constructor
    · by_contra hlt
      push_neg at hlt
      have hk := (key (simulator truth).length).mp
        (h _ (List.mem_range.mpr hlt))
      omega
    · by_contra hlt
      push_neg at hlt
      have hk := (key (simulator (theta_means samples)).length).mp
        (h _ (List.mem_range.mpr hlt))
      omega
  · rintro ⟨hA, hB⟩ i hi
    rw [List.mem_range] at hi
    rw [key i]
    omega
def c3Sim : (Fin 1 → Fin 1 → ℚ) → List ℚ := fun th => [th 0 0, th 0 0]

def c3S : Fin 1 → Fin 1 → Fin 1 → ℚ := fun _ _ _ => 0

def c3T : Fin 1 → Fin 1 → ℚ := fun _ _ => 0

/-- C3 counterexample: with one test instance and a simulator whose output
has leading dimension 2 ≠ 1, `resimulation_error` succeeds (returns a value)
instead of failing. -/
theorem resimulation_error_dim_mismatch_counterexample :
    (c3Sim c3T).length ≠ 1 ∧
      (resimulation_error c3S c3T c3Sim (fun a b => (a - b) ^ 2)).isSome = true := by
  constructor
  · simp [c3Sim]
  · unfold resimulation_error
    rw [Option.isSome_map', mapM_option_isSome]
    intro i hi
    rw [List.mem_range] at hi
    have hi0 : i = 0 := by omega
    subst hi0
    simp [c3Sim]

/-- C5: when the simulator outputs cover all `n_test` instances,
`resimulation_error` is the median of the per-instance two-sample distances
between the true-parameter and estimated-parameter simulations; if moreover
the posterior means equal the truth exactly and the distance of any point set
to itself is 0, the returned value is exactly 0. -/
theorem resimulation_error_median_spec {D : Type _} {nS nT nP : ℕ}
    (samples : Fin nS → Fin nT → Fin nP → ℚ) (truth : Fin nT → Fin nP → ℚ)
    (simulator : (Fin nT → Fin nP → ℚ) → List D) (mmd : D → D → ℚ) (d0 : D)
    (hT : nT ≤ (simulator truth).length)
    (hE : nT ≤ (simulator (theta_means samples)).length) :
    resimulation_error samples truth simulator mmd =
      some (np_median ((List.range nT).map (fun i =>
        mmd ((simulator truth).getD i d0)
          ((simulator (theta_means samples)).getD i d0)))) ∧
    ((∀ i k, theta_means samples i k = truth i k) → (∀ d, mmd d d = 0) →
      resimulation_error samples truth simulator mmd = some 0) := by
  have hmain : resimulation_error samples truth simulator mmd =
      some (np_median ((List.range nT).map (fun i =>
        mmd ((simulator truth).getD i d0)
          ((simulator (theta_means samples)).getD i d0)))) := by
    unfold resimulation_error
    dsimp only
    rw [mapM_option_eq_some _ (fun i =>
        mmd ((simulator truth).getD i d0)
          ((simulator (theta_means samples)).getD i d0)) _ ?_]
    · rfl
    · intro i hi
      rw [List.mem_range] at hi
      rw [List.getElem?_eq_getElem (by omega : i < (simulator truth).length),
        List.getElem?_eq_getElem (by omega : i < (simulator (theta_means samples)).length)]
      dsimp only
      rw [List.getD_eq_getElem _ _ (by omega : i < (simulator truth).length),
        List.getD_eq_getElem _ _ (by omega : i < (simulator (theta_means samples)).length)]
      rfl
  refine ⟨hmain, ?_⟩
  intro hmean hzero
  have hfun : theta_means samples = truth :=
    funext (fun i => funext (fun k => hmean i k))
  rw [hfun] at hmain
  rw [hmain]
  have hall : ∀ x ∈ (List.range nT).map (fun i =>
      mmd ((simulator truth).getD i d0) ((simulator truth).getD i d0)),
      0 ≤ x ∧ x ≤ 0 := by
    intro x hx
    rw [List.mem_map] at hx
    obtain ⟨i, _, rfl⟩ := hx
    rw [hzero]
    exact ⟨le_refl 0, le_refl 0⟩
  have hb := np_median_bounds _ 0 (le_refl 0) hall
  rw [le_antisymm hb.2 hb.1]
def c5S : Fin 1 → Fin 1 → Fin 1 → ℚ := fun _ _ _ => 2

def c5T : Fin 1 → Fin 1 → ℚ := fun _ _ => 2

def c5Sim : (Fin 1 → Fin 1 → ℚ) → List ℚ := fun th => [th 0 0]

/-- Witness for C5 at a concrete deterministic simulator with exact means. -/
theorem resimulation_error_median_spec_witness :
    (1 ≤ (c5Sim c5T).length) ∧
    (1 ≤ (c5Sim (theta_means c5S)).length) ∧
    (∀ i k, theta_means c5S i k = c5T i k) ∧
    (∀ d : ℚ, (d - d) ^ 2 = 0) ∧
    resimulation_error c5S c5T c5Sim (fun a b => (a - b) ^ 2) = some 0 := by
  have hmean : ∀ i k, theta_means c5S i k = c5T i k := by
    intro i k
    simp [theta_means, c5S, c5T]
  have hzero : ∀ d : ℚ, (d - d) ^ 2 = 0 := by
    intro d
    ring
  refine ⟨by simp [c5Sim], by simp [c5Sim], hmean, hzero, ?_⟩
  exact (resimulation_error_median_spec c5S c5T c5Sim (fun a b => (a - b) ^ 2) 0
    (by simp [c5Sim]) (by simp [c5Sim])).2 hmean hzero

/-- Rounding a nonnegative scalar to the nearest integer stays nonnegative. -/
theorem rne_nonneg (y : ℚ) (h0 : 0 ≤ y) : 0 ≤ rne y := by
  have hf : (0:ℤ) ≤ ⌊y⌋ := Int.floor_nonneg.mpr h0
  unfold rne
  dsimp only
  split
  · exact hf
  · split
    · omega
    · split <;> omega

/-- Rounding does not cross an integer upper bound. -/
theorem rne_le_of_le (y : ℚ) (N : ℤ) (h1 : y ≤ N) : rne y ≤ N := by
  have hfN : ⌊y⌋ ≤ N := by
    have hmono := Int.floor_le_floor (α := ℚ) h1
    rwa [Int.floor_intCast] at hmono
  unfold rne
  dsimp only
  by_cases hhalf : y - (⌊y⌋ : ℚ) < 1/2
  · rw [if_pos hhalf]
    exact hfN
  · rw [if_neg hhalf]
    push_neg at hhalf
    have hstrict : ⌊y⌋ < N := by
      have hup : (⌊y⌋:ℚ) + 1/2 ≤ (N:ℚ) := by linarith
      have hql : (⌊y⌋:ℚ) < (N:ℚ) := by linarith
      exact_mod_cast hql
    by_cases hgt : 1/2 < y - (⌊y⌋ : ℚ)
    · rw [if_pos hgt]
      omega
    · rw [if_neg hgt]
      by_cases hev : ⌊y⌋ % 2 = 0
      · rw [if_pos hev]
        exact hfN
      · rw [if_neg hev]
        omega

/-- `np.round(x, 3)` keeps a value of `[0, 1]` inside `[0, 1]`. -/
theorem round3_bounds (x : ℚ) (h0 : 0 ≤ x) (h1 : x ≤ 1) :
    0 ≤ round3 x ∧ round3 x ≤ 1 := by
  unfold round3
  have hn : 0 ≤ rne (1000 * x) := rne_nonneg _ (by linarith)
  have hle : rne (1000 * x) ≤ (1000 : ℤ) := rne_le_of_le _ 1000 (by push_cast; linarith)
  constructor
  · apply div_nonneg _ (by norm_num)
    exact_mod_cast hn
  · rw [div_le_one (by norm_num)]
    exact_mod_cast hle

/-- The empirical coverage is always a fraction in `[0, 1]`. -/
theorem coverageAt_bounds {nS nT nP : ℕ} (samples : Fin nS → Fin nT → Fin nP → ℚ)
    (truth : Fin nT → Fin nP → ℚ) (k : Fin nP) (a : ℚ) :
    0 ≤ coverageAt samples truth k a ∧ coverageAt samples truth k a ≤ 1 := by
  unfold coverageAt
  rcases Nat.eq_zero_or_pos nT with h0 | hpos
  · subst h0
    norm_num
  · constructor
    · apply div_nonneg <;> positivity
    · rw [div_le_one (by exact_mod_cast hpos)]
      have hcount : (List.ofFn (fun i : Fin nT => inlier samples truth i k a)).count true ≤ nT := by
        calc (List.ofFn (fun i : Fin nT => inlier samples truth i k a)).count true
            ≤ (List.ofFn (fun i : Fin nT => inlier samples truth i k a)).length :=
              List.count_le_length true _
          _ = nT := List.length_ofFn _
      exact_mod_cast hcount

/-- C9: for all inputs, every value returned by `calibration_error` lies in
the closed interval `[0, 1]`. -/
theorem calibration_error_mem_unit_interval {nS nT nP : ℕ}
    (samples : Fin nS → Fin nT → Fin nP → ℚ) (truth : Fin nT → Fin nP → ℚ)
    (res : ℕ) (k : Fin nP) :
    0 ≤ calibration_error samples truth res k ∧
      calibration_error samples truth res k ≤ 1 := by
  unfold calibration_error
  dsimp only
  have hbounds : ∀ x ∈ (calibAlphas res).map
      (fun a => |a - coverageAt samples truth k a|), 0 ≤ x ∧ x ≤ 1 := by
    intro x hx
    rw [List.mem_map] at hx
    obtain ⟨a, ha, rfl⟩ := hx
    have haB := calibAlphas_bounds res a ha
    have hcov := coverageAt_bounds samples truth k a
    refine ⟨abs_nonneg _, ?_⟩
    rw [abs_le]
    constructor <;> linarith [haB.1, haB.2, hcov.1, hcov.2]
  have hmed := np_median_bounds _ 1 (by norm_num) hbounds
  exact round3_bounds _ hmed.1 hmed.2
/-- C7 (amended): on degenerate inputs the diagnostics do not raise: a
zero-range truth column makes normalized `rmse` a non-finite value, while
`R2` on an all-identical truth column returns the finite sklearn sentinel
(1 when the residual sum is zero, else 0). -/
theorem degenerate_inputs_spec {nS nT nP : ℕ}
    (samples : Fin nS → Fin nT → Fin nP → ℚ) (truth : Fin nT → Fin nP → ℚ)
    (k : Fin nP) :
    (colRange truth k = 0 → (rmse samples truth true k).isFinite = false) ∧
    ((∀ i j : Fin nT, truth i k = truth j k) →
      R2 samples truth k =
        if (∑ i, (truth i k - theta_means samples i k) ^ 2) = 0 then 1 else 0) := by
  constructor
  · intro hzero
    unfold rmse npDiv
    rw [hzero]
    dsimp only
    rw [if_pos rfl, if_pos (by norm_num : ((0:ℚ):ℝ) = 0)]
    rcases lt_or_eq_of_le (Real.sqrt_nonneg ((mseCol samples truth k : ℚ) : ℝ)) with hr | hr
    · rw [if_pos hr]
      rfl
    · rw [if_neg (by rw [← hr]; exact lt_irrefl 0),
        if_neg (by rw [← hr]; exact lt_irrefl 0)]
      rfl
  · intro hconst
    unfold R2 r2_score_col
    dsimp only
    by_cases hnum : (∑ i, (truth i k - theta_means samples i k) ^ 2) = 0
    · rw [if_pos hnum, if_pos hnum]
    · rw [if_neg hnum, if_neg hnum]
      have hden : (∑ i, (truth i k - colMean truth k) ^ 2) = 0 := by
        rcases Nat.eq_zero_or_pos nT with h0 | hpos
        · subst h0
          simp
        · have hmean : ∀ i : Fin nT, colMean truth k = truth i k := by
            intro i
            unfold colMean
            have hsum : (∑ j, truth j k) = (nT : ℚ) * truth i k := by
              rw [Finset.sum_congr rfl (fun j _ => hconst j i)]
              rw [Finset.sum_const, Finset.card_univ, Fintype.card_fin]
              rw [nsmul_eq_mul]
            rw [hsum]
            rw [mul_comm, mul_div_assoc, div_self (by exact_mod_cast Nat.pos_iff_ne_zero.mp hpos), mul_one]
          apply Finset.sum_eq_zero
          intro i _
          rw [hmean i]
          ring
      rw [if_pos hden]
def c7S : Fin 1 → Fin 2 → Fin 1 → ℚ := fun _ _ _ => 7

def c7T : Fin 2 → Fin 1 → ℚ := fun _ _ => 5

/-- C7 counterexample: `R2` on an all-identical truth column returns the
finite sentinel 0 of the `r2_score` collaborator, not a non-finite value. -/
theorem degenerate_R2_counterexample :
    (∀ i j : Fin 2, c7T i 0 = c7T j 0) ∧ R2 c7S c7T 0 = 0 := by
  refine ⟨fun i j => rfl, ?_⟩
  unfold R2 r2_score_col colMean theta_means
  norm_num [c7S, c7T, Fin.sum_univ_two]

/-- Witness for C7 at a concrete degenerate input. -/
theorem degenerate_inputs_spec_witness :
    colRange c7T 0 = 0 ∧ (∀ i j : Fin 2, c7T i 0 = c7T j 0) ∧
      (rmse c7S c7T true 0).isFinite = false ∧ R2 c7S c7T 0 = 0 := by
  have hrange : colRange c7T 0 = 0 := by
    norm_num [colRange, colMax, colMin, c7T, List.ofFn_succ]
  have hconst : ∀ i j : Fin 2, c7T i 0 = c7T j 0 := fun i j => rfl
  refine ⟨hrange, hconst, (degenerate_inputs_spec c7S c7T 0).1 hrange, ?_⟩
  rw [(degenerate_inputs_spec c7S c7T 0).2 hconst]
  rw [if_neg ?hne]
  case hne =>
    norm_num [theta_means, c7S, c7T, Fin.sum_univ_two]

/-- Counting `true` over `List.ofFn` equals the `Finset` cardinality of the
predicate. -/
theorem count_true_ofFn {n : ℕ} (f : Fin n → Bool) :
    (List.ofFn f).count true = (Finset.univ.filter (fun i => f i = true)).card := by
  rw [Finset.card_filter]
  induction n with
  | zero => simp
  | succ n ih =>
    rw [List.ofFn_succ, List.count_cons, Fin.sum_univ_succ, ih (fun i => f i.succ)]
    rcases hb : f 0 with _ | _ <;> (simp [hb]; try omega)

/-- C1 spec side: the set of test instances whose true value lies strictly
between the per-instance lower quantile at `round((1-alpha)/2, 3)` and upper
quantile at `round(1-(1-alpha)/2, 3)` of that instance's posterior draws. -/
def inlierSet {nS nT nP : ℕ} (samples : Fin nS → Fin nT → Fin nP → ℚ)
    (truth : Fin nT → Fin nP → ℚ) (k : Fin nP) (alpha : ℚ) : Finset (Fin nT) :=
  Finset.univ.filter (fun i =>
    np_quantile (sampleColumn samples i k) (round3 ((1 - alpha) / 2)) < truth i k ∧
    truth i k < np_quantile (sampleColumn samples i k) (round3 (1 - (1 - alpha) / 2)))

/-- C1 spec side: empirical coverage at level `alpha` is the number of
inliers divided by `n_test`. -/
def coverage_spec {nS nT nP : ℕ} (samples : Fin nS → Fin nT → Fin nP → ℚ)
    (truth : Fin nT → Fin nP → ℚ) (k : Fin nP) (alpha : ℚ) : ℚ :=
  ((inlierSet samples truth k alpha).card : ℚ) / (nT : ℚ)

/-- C1 spec side: the calibration error for parameter `k` is the median over
the alpha grid of `|alpha - coverage|`, rounded to 3 decimal digits. -/
def calibration_error_spec {nS nT nP : ℕ} (samples : Fin nS → Fin nT → Fin nP → ℚ)
    (truth : Fin nT → Fin nP → ℚ) (res : ℕ) (k : Fin nP) : ℚ :=
  round3 (np_median ((calibAlphas res).map
    (fun a => |a - coverage_spec samples truth k a|)))

/-- C1: `calibration_error` computes exactly the per-instance
quantile-coverage statistic of the specification: per-instance quantiles at
the rounded boundary levels, strict inlier test, coverage as inlier fraction
of `n_test`, and the rounded median of `|alpha - coverage|` over the grid. -/
theorem calibration_error_eq_spec {nS nT nP : ℕ}
    (samples : Fin nS → Fin nT → Fin nP → ℚ) (truth : Fin nT → Fin nP → ℚ)
    (res : ℕ) (k : Fin nP) :
    calibration_error samples truth res k =
      calibration_error_spec samples truth res k := by
  have hcov : ∀ a : ℚ, coverageAt samples truth k a = coverage_spec samples truth k a := by
    intro a
    unfold coverageAt coverage_spec inlierSet
    rw [count_true_ofFn]
    congr 2
    apply congrArg Finset.card
    apply Finset.filter_congr
    intro i _
    unfold inlier calibLower calibUpper
    dsimp only
    rw [Bool.and_eq_true, decide_eq_true_iff, decide_eq_true_iff]
  unfold calibration_error calibration_error_spec
  dsimp only
  rw [List.map_congr_left (fun a _ => by rw [hcov a])]

/-- The head of the sorted copy of a nonempty list is its minimum. -/
theorem insertionSort_getD_zero (l : List ℚ) (hl : l ≠ []) :
    (l.insertionSort (· ≤ ·)).getD 0 0 = (l.min?).getD 0 := by
  have hperm := List.perm_insertionSort (· ≤ ·) l
  have hsort := List.sorted_insertionSort (· ≤ ·) l
  cases hs : l.insertionSort (· ≤ ·) with
  | nil =>
    exfalso
    apply hl
    have hlen := hperm.length_eq
    rw [hs] at hlen
    exact List.length_eq_zero.mp hlen.symm
  | cons a t =>
    rw [hs] at hsort hperm
    rw [List.sorted_cons] at hsort
    have hmin : l.min? = some a := by
      rw [rat_min?_eq_some_iff]
      constructor
      · exact hperm.mem_iff.mp (List.mem_cons_self a t)
      · intro b hb
        rcases List.mem_cons.mp (hperm.mem_iff.mpr hb) with rfl | hbt
        · exact le_refl b
        · exact hsort.1 b hbt
    rw [hmin]
    rfl

/-- The last entry of the sorted copy of a nonempty list is its maximum. -/
theorem insertionSort_getD_last (l : List ℚ) (hl : l ≠ []) :
    (l.insertionSort (· ≤ ·)).getD (l.length - 1) 0 = (l.max?).getD 0 := by
  have hperm := List.perm_insertionSort (· ≤ ·) l
  have hsort := List.sorted_insertionSort (· ≤ ·) l
  have hlen : (l.insertionSort (· ≤ ·)).length = l.length :=
    List.length_insertionSort (· ≤ ·) l
  have hpos : 0 < l.length := List.length_pos.mpr hl
  have hin : l.length - 1 < (l.insertionSort (· ≤ ·)).length := by omega
  rw [List.getD_eq_getElem _ _ hin]
  have hmax : l.max? = some ((l.insertionSort (· ≤ ·))[l.length - 1]) := by
    rw [rat_max?_eq_some_iff]
    constructor
    · exact hperm.mem_iff.mp (List.getElem_mem hin)
    · intro b hb
      obtain ⟨j, hj, rfl⟩ := List.mem_iff_getElem.mp (hperm.mem_iff.mpr hb)
      rcases Nat.lt_or_ge j (l.length - 1) with hlt | hge
      · exact (List.pairwise_iff_getElem.mp hsort) j (l.length - 1) hj hin hlt
      · have hj' : j = l.length - 1 := by omega
        subst hj'
        exact le_refl _
  rw [hmax]
  rfl

/-- `np.quantile(xs, 0)` of a nonempty array is the sample minimum. -/
theorem np_quantile_zero (xs : List ℚ) (hx : xs ≠ []) :
    np_quantile xs 0 = (xs.min?).getD 0 := by
  unfold np_quantile
  dsimp only
  rw [zero_mul, Int.floor_zero, Int.toNat_zero]
  rw [← insertionSort_getD_zero xs hx]
  push_cast
  ring

/-- `np.quantile(xs, 1)` of a nonempty array is the sample maximum. -/
theorem np_quantile_one (xs : List ℚ) (hx : xs ≠ []) :
    np_quantile xs 1 = (xs.max?).getD 0 := by
  have hpos : 0 < xs.length := List.length_pos.mpr hx
  have h1le : 1 ≤ xs.length := hpos
  unfold np_quantile
  dsimp only
  rw [one_mul]
  have hfloor : ⌊(xs.length : ℚ) - 1⌋ = (xs.length : ℤ) - 1 := by
    rw [show ((xs.length : ℚ) - 1) = ((xs.length : ℚ)) - ((1:ℤ):ℚ) by norm_num]
    rw [Int.floor_sub_int, Int.floor_natCast]
  rw [hfloor]
  have htoNat : ((xs.length : ℤ) - 1).toNat = xs.length - 1 := by omega
  rw [htoNat]
  have hfrac : (xs.length : ℚ) - 1 - ((xs.length - 1 : ℕ) : ℚ) = 0 := by
    rw [Nat.cast_sub h1le]
    push_cast
    ring
  rw [hfrac, zero_mul, add_zero]
  exact insertionSort_getD_last xs hx

/-- Rounding an integer scalar is the identity. -/
theorem rne_intCast (n : ℤ) : rne ((n : ℤ) : ℚ) = n := by
  unfold rne
  dsimp only
  rw [Int.floor_intCast, sub_self, if_pos (by norm_num : (0:ℚ) < 1/2)]

/-- At level 1 the lower bound is the 0-quantile level. -/
theorem calibLower_one : calibLower 1 = 0 := by
  unfold calibLower round3
  rw [show (1000 * ((1 - 1) / 2) : ℚ) = ((0:ℤ):ℚ) by norm_num, rne_intCast]
  norm_num

/-- At level 1 the upper bound is the 1-quantile level. -/
theorem calibUpper_one : calibUpper 1 = 1 := by
  unfold calibUpper round3
  rw [show (1000 * (1 - (1 - 1) / 2) : ℚ) = ((1000:ℤ):ℚ) by norm_num, rne_intCast]
  norm_num

/-- A posterior sample column with at least one draw is nonempty. -/
theorem sampleColumn_ne_nil {m nT nP : ℕ} (samples : Fin (m+1) → Fin nT → Fin nP → ℚ)
    (i : Fin nT) (k : Fin nP) : sampleColumn samples i k ≠ [] := by
  unfold sampleColumn
  intro hcontra
  have hlen := congrArg List.length hcontra
  rw [List.length_ofFn] at hlen
  simp at hlen
def c10S : Fin 2 → Fin 1 → Fin 1 → ℚ := fun s _ _ => if s = 0 then 0 else 1

def c10T : Fin 1 → Fin 1 → ℚ := fun _ _ => 0

/-- C10: at the grid endpoint alpha = 1 the interval boundaries are the
0-quantile and 1-quantile, i.e. each instance's per-instance sample minimum
and maximum, and the strict inlier test makes the empirical coverage the
fraction of instances whose truth lies strictly between them; concretely
(second part) a truth hitting its sample minimum is counted as an outlier,
so the coverage at level 1 is below 1 although every truth lies within its
sample range. -/
theorem coverage_at_level_one_spec {m nT nP : ℕ}
    (samples : Fin (m + 1) → Fin nT → Fin nP → ℚ) (truth : Fin nT → Fin nP → ℚ)
    (k : Fin nP) :
    (coverageAt samples truth k 1 =
      (((Finset.univ.filter (fun i : Fin nT =>
        ((sampleColumn samples i k).min?).getD 0 < truth i k ∧
        truth i k < ((sampleColumn samples i k).max?).getD 0)).card : ℕ) : ℚ) / (nT : ℚ)) ∧
    ((∀ i : Fin 1, ((sampleColumn c10S i 0).min?).getD 0 ≤ c10T i 0 ∧
        c10T i 0 ≤ ((sampleColumn c10S i 0).max?).getD 0) ∧
      coverageAt c10S c10T 0 1 = 0 ∧ coverageAt c10S c10T 0 1 < 1) := by
  have hcol : ∀ i : Fin 1, sampleColumn c10S i 0 = [0, 1] := by
    intro i
    unfold sampleColumn c10S
    rw [List.ofFn_succ, List.ofFn_succ, List.ofFn_zero]
    norm_num [Fin.succ_ne_zero]
  have hmin : (([0, 1] : List ℚ).min?).getD 0 = 0 := by
    norm_num [List.min?, min_def]
  have hmax : (([0, 1] : List ℚ).max?).getD 0 = 1 := by
    norm_num [List.max?, max_def]
  have hinl : ∀ i : Fin 1, inlier c10S c10T i 0 1 = false := by
    intro i
    unfold inlier
    dsimp only
    rw [calibLower_one, np_quantile_zero _ (by rw [hcol i]; intro h; cases h)]
    rw [hcol i, hmin]
    have : c10T i 0 = 0 := rfl
    rw [this]
    norm_num
  constructor
  · unfold coverageAt
    rw [count_true_ofFn]
    congr 2
    apply congrArg Finset.card
    apply Finset.filter_congr
    intro i _
    unfold inlier
    dsimp only
    rw [Bool.and_eq_true, decide_eq_true_iff, decide_eq_true_iff]
    rw [calibLower_one, calibUpper_one]
    rw [np_quantile_zero _ (sampleColumn_ne_nil samples i k),
      np_quantile_one _ (sampleColumn_ne_nil samples i k)]
  · have hcov : coverageAt c10S c10T 0 1 = 0 := by
      unfold coverageAt
      rw [List.ofFn_succ, List.ofFn_zero, hinl 0]
      norm_num
    refine ⟨?_, hcov, by rw [hcov]; norm_num⟩
    intro i
    rw [hcol i, hmin, hmax]
    constructor
    · norm_num [c10T]
    · norm_num [c10T]

/-- C8 spec side: Bessel-corrected (divisor `n - 1`) sample variance of the
per-instance posterior-mean estimates. -/
def besselVar {nT : ℕ} (x : Fin nT → ℚ) : ℚ :=
  (∑ i, (x i - (∑ j, x j) / (nT : ℚ)) ^ 2) / ((nT : ℚ) - 1)

/-- `np.var(·, ddof=1)` on a `Fin`-vector agrees with the spec formula. -/
theorem np_var_ddof1_ofFn {nT : ℕ} (x : Fin nT → ℚ) :
    np_var_ddof1 (List.ofFn x) = besselVar x := by
  unfold np_var_ddof1 besselVar
  dsimp only
  rw [List.length_ofFn, List.sum_ofFn, List.map_ofFn, List.sum_ofFn]
  rfl

/-- C8: for `n_min ≤ n_max`, `compute_metrics` sweeps exactly the integers
`n_min, ..., n_max` (length `n_max - n_min + 1`); every per-metric
per-parameter sequence gets exactly one entry per sweep value; the `m`-th
entry of each sequence is computed from the simulate call at
`n_trials = n_min + m`; and the recorded variance is the Bessel-corrected
(divisor `n - 1`) variance of the posterior-mean estimates. -/
theorem compute_metrics_spec {D : Type _} {nT nP : ℕ}
    (simulate : ℕ → ℕ → D × (Fin nT → Fin nP → ℚ))
    (sampler : D → ℕ → List (Fin nT → Fin nP → ℚ))
    (n_test nsp : ℕ)
    (transform : Option (D × (Fin nT → Fin nP → ℚ) → D × (Fin nT → Fin nP → ℚ)))
    (n_min n_max : ℕ) (h : n_min ≤ n_max) :
    (compute_metrics simulate sampler n_test nsp transform n_min n_max).1 =
      (List.range (n_max - n_min + 1)).map (fun m => n_min + m) ∧
    (compute_metrics simulate sampler n_test nsp transform n_min n_max).1.length =
      n_max - n_min + 1 ∧
    (∀ j : Fin nP,
      ((compute_metrics simulate sampler n_test nsp transform n_min n_max).2.nrmse j).length =
        n_max - n_min + 1 ∧
      ((compute_metrics simulate sampler n_test nsp transform n_min n_max).2.r2 j).length =
        n_max - n_min + 1 ∧
      ((compute_metrics simulate sampler n_test nsp transform n_min n_max).2.var j).length =
        n_max - n_min + 1) ∧
    (∀ j : Fin nP, ∀ m, m < n_max - n_min + 1 →
      ((compute_metrics simulate sampler n_test nsp transform n_min n_max).2.nrmse j).getD m .nan =
        sweepNrmse (sweepMeans sampler nsp (sweepPair simulate transform n_test (n_min + m)).1)
          (sweepPair simulate transform n_test (n_min + m)).2 j ∧
      ((compute_metrics simulate sampler n_test nsp transform n_min n_max).2.r2 j).getD m 0 =
        r2_score_col (sweepPair simulate transform n_test (n_min + m)).2
          (sweepMeans sampler nsp (sweepPair simulate transform n_test (n_min + m)).1) j ∧
      ((compute_metrics simulate sampler n_test nsp transform n_min n_max).2.var j).getD m 0 =
        besselVar (fun i =>
          sweepMeans sampler nsp (sweepPair simulate transform n_test (n_min + m)).1 i j)) := by
  have hlen : n_max + 1 - n_min = n_max - n_min + 1 := by omega
  unfold compute_metrics
  dsimp only
  rw [hlen]
  have hns : List.range' n_min (n_max - n_min + 1) =
      (List.range (n_max - n_min + 1)).map (fun m => n_min + m) := by
    rw [List.range'_eq_map_range]
  have hlen' : (List.range' n_min (n_max - n_min + 1)).length = n_max - n_min + 1 :=
    List.length_range' ..
  have hget : ∀ m, m < n_max - n_min + 1 →
      ∀ (hm : m < (List.range' n_min (n_max - n_min + 1)).length),
      (List.range' n_min (n_max - n_min + 1))[m] = n_min + m := by
    intro m hm hm'
    rw [List.getElem_range']
    omega
  refine ⟨hns, hlen', fun j => ⟨?_, ?_, ?_⟩, fun j m hm => ⟨?_, ?_, ?_⟩⟩
  · rw [List.length_map, hlen']
  · rw [List.length_map, hlen']
  · rw [List.length_map, hlen']
  · rw [List.getD_eq_getElem _ _ (by rw [List.length_map, hlen']; omega),
      List.getElem_map, hget m hm (by rw [hlen']; omega)]
  · rw [List.getD_eq_getElem _ _ (by rw [List.length_map, hlen']; omega),
      List.getElem_map, hget m hm (by rw [hlen']; omega)]
  · rw [List.getD_eq_getElem _ _ (by rw [List.length_map, hlen']; omega),
      List.getElem_map, hget m hm (by rw [hlen']; omega)]
    exact np_var_ddof1_ofFn _
def c8Sim : ℕ → ℕ → Unit × (Fin 1 → Fin 1 → ℚ) := fun _ _ => ((), fun _ _ => 0)

def c8Sampler : Unit → ℕ → List (Fin 1 → Fin 1 → ℚ) := fun _ _ => [fun _ _ => 0]

/-- Witness for C8 at the single-condition sweep `n_min = n_max = 100`. -/
theorem compute_metrics_spec_witness :
    (100 ≤ 100) ∧
    ((compute_metrics c8Sim c8Sampler 1 1 none 100 100).1 =
      (List.range (100 - 100 + 1)).map (fun m => 100 + m) ∧
    (compute_metrics c8Sim c8Sampler 1 1 none 100 100).1.length = 100 - 100 + 1 ∧
    (∀ j : Fin 1,
      ((compute_metrics c8Sim c8Sampler 1 1 none 100 100).2.nrmse j).length = 100 - 100 + 1 ∧
      ((compute_metrics c8Sim c8Sampler 1 1 none 100 100).2.r2 j).length = 100 - 100 + 1 ∧
      ((compute_metrics c8Sim c8Sampler 1 1 none 100 100).2.var j).length = 100 - 100 + 1) ∧
    (∀ j : Fin 1, ∀ m, m < 100 - 100 + 1 →
      ((compute_metrics c8Sim c8Sampler 1 1 none 100 100).2.nrmse j).getD m .nan =
        sweepNrmse (sweepMeans c8Sampler 1 (sweepPair c8Sim none 1 (100 + m)).1)
          (sweepPair c8Sim none 1 (100 + m)).2 j ∧
      ((compute_metrics c8Sim c8Sampler 1 1 none 100 100).2.r2 j).getD m 0 =
        r2_score_col (sweepPair c8Sim none 1 (100 + m)).2
          (sweepMeans c8Sampler 1 (sweepPair c8Sim none 1 (100 + m)).1) j ∧
      ((compute_metrics c8Sim c8Sampler 1 1 none 100 100).2.var j).getD m 0 =
        besselVar (fun i =>
          sweepMeans c8Sampler 1 (sweepPair c8Sim none 1 (100 + m)).1 i j))) :=
  ⟨by omega, compute_metrics_spec c8Sim c8Sampler 1 1 none 100 100 (by omega)⟩

end CINN
